import Mathlib

/-!
Shallow embedding of the stock/price synchronisation core of the
`seller-apis` repository (files `seller.py` and `market.py`).

Feed fields are modelled as strings: the source applies `str(...)` to the
offer code and quantity cells before comparing, and the price cell is
processed purely as text.  Machine integers do not overflow here because
Python integers are unbounded, so quantities and prices are `Int`/`Nat`.
Fallible code (Python `int()` raising `ValueError`) is modelled with
`Option`.
-/

namespace SellerApis

/-! ### Model of Python `int(str)`

`int()` strips surrounding whitespace, accepts an optional sign, and then a
non-empty run of decimal digits in which single underscores may appear
between digits.  Anything else raises `ValueError` (modelled as `none`).
Only ASCII digits and ASCII whitespace are modelled. -/

/-- One pass over the characters of a candidate digit run.  The flag records
whether the previous character was an underscore (so a digit is required
next); it starts `true`, which also rejects the empty string and a leading
underscore. -/
def digitSeq : List Char → Bool → Bool
  | [], afterUnd => !afterUnd
  | c :: rest, afterUnd =>
    if c = '_' then !afterUnd && digitSeq rest true
    else c.isDigit && digitSeq rest false

/-- Numeric value of a list of ASCII digit characters. -/
def digitsVal (cs : List Char) : Nat :=
  cs.foldl (fun acc c => 10 * acc + (c.toNat - 48)) 0

/-- Parse a whitespace-stripped character list the way Python `int` does:
optional sign, then a digit run (underscores between digits allowed). -/
def pyIntSigned : List Char → Option Int
  | [] => none
  | c :: rest =>
    if c = '-' then
      if digitSeq rest true then
        some (-(digitsVal (rest.filter (fun d => d != '_')) : Int))
      else none
    else if c = '+' then
      if digitSeq rest true then
        some ((digitsVal (rest.filter (fun d => d != '_')) : Int))
      else none
    else
      if digitSeq (c :: rest) true then
        some ((digitsVal ((c :: rest).filter (fun d => d != '_')) : Int))
      else none

/-- Strip whitespace from both ends of a character list. -/
def stripWs (cs : List Char) : List Char :=
  ((cs.dropWhile Char.isWhitespace).reverse.dropWhile Char.isWhitespace).reverse

/-- Model of Python `int(s)` for a string `s`: `some n` on success, `none`
where CPython raises `ValueError`. -/
def pyInt (s : String) : Option Int :=
  pyIntSigned (stripWs s.data)

/-! ### Feed records and quantity normalisation -/

/-- One row of the stock feed (`watch_remnants`): the offer code column
(Russian header transliterated `kod`), the textual quantity column
(`kolichestvo`) and the textual price column (`tsena`). -/
structure WatchRecord where
  kod : String
  kolichestvo : String
  tsena : String
deriving Repr, DecidableEq

/-- The quantity rule inlined in both `create_stocks` implementations
(`seller.py` lines 206-213, `market.py` lines 173-180): the sentinel
string of a greater-than sign followed by `10` maps to `100`, the literal
string `1` maps to `0`, anything else goes through Python `int()`. -/
def normalizeQuantity (count : String) : Option Int :=
  if count = ">10" then some 100
  else if count = "1" then some 0
  else pyInt count

/-! ### Price normalisation (`price_conversion`, seller.py line 274) -/

/-- `re.sub("[^0-9]", "", price.split(".")[0])`: keep the part of the text
before the first dot, then keep only the ASCII digits of that part. -/
def price_conversion (price : String) : String :=
  ⟨(price.data.takeWhile (fun c => c ≠ '.')).filter Char.isDigit⟩

/-- `int(price_conversion(...))` as performed by `market.create_prices`
(line 246): the digit-only string is parsed by Python `int`, which raises
on the empty string. -/
def normalizePrice (price : String) : Option Int :=
  pyInt (price_conversion price)

/-! ### Stock reconciliation (`seller.create_stocks`, lines 203-219) -/

/-- One entry of the stock payload built by `seller.create_stocks`. -/
structure StockRecord where
  offer_id : String
  stock : Int
deriving Repr, DecidableEq

/-- The first loop of `create_stocks`: walk the feed; whenever the record
code is a member of the working `offer_ids` list, normalise the quantity
(`none` models the `ValueError` from `int()`), append a stock entry and
remove the code from the working list (`list.remove` drops the first
occurrence).  Returns the built entries together with the final state of
the working list, because the source mutates the list it was handed. -/
def stocksLoop : List WatchRecord → List StockRecord → List String →
    Option (List StockRecord × List String)
  | [], stocks, offer_ids => some (stocks, offer_ids)
  | w :: ws, stocks, offer_ids =>
    if w.kod ∈ offer_ids then
      match normalizeQuantity w.kolichestvo with
      | none => none
      | some q => stocksLoop ws (stocks ++ [⟨w.kod, q⟩]) (offer_ids.erase w.kod)
    else stocksLoop ws stocks offer_ids

/-- `create_stocks` including its side effect: the second loop appends a
zero-quantity entry for every code left in the working list; the pair also
returns the final contents of the caller's (mutated) `offer_ids` list. -/
def create_stocks_full (watch_remnants : List WatchRecord)
    (offer_ids : List String) : Option (List StockRecord × List String) :=
  match stocksLoop watch_remnants [] offer_ids with
  | none => none
  | some (stocks, ids) =>
      some (stocks ++ ids.map (fun offer_id => ⟨offer_id, 0⟩), ids)

/-- The return value of `seller.create_stocks`. -/
def create_stocks (watch_remnants : List WatchRecord)
    (offer_ids : List String) : Option (List StockRecord) :=
  (create_stocks_full watch_remnants offer_ids).map Prod.fst

/-! ### Price reconciliation (`seller.create_prices`, lines 243-254) -/

/-- One entry of the price payload built by `seller.create_prices`.  The
`price` field keeps the digit string returned by `price_conversion`, as in
the source. -/
structure PriceRecordOzon where
  auto_action_enabled : String
  currency_code : String
  offer_id : String
  old_price : String
  price : String
deriving Repr, DecidableEq

/-- `seller.create_prices`: one price entry per feed record whose code is a
member of `offer_ids`; the list is only read, never mutated. -/
def create_prices : List WatchRecord → List String → List PriceRecordOzon
  | [], _ => []
  | w :: ws, offer_ids =>
    if w.kod ∈ offer_ids then
      ⟨"UNKNOWN", "RUB", w.kod, "0", price_conversion w.tsena⟩ ::
        create_prices ws offer_ids
    else create_prices ws offer_ids

/-! ### Batching (`seller.divide`, lines 300-301) -/

/-- The slices produced by `for i in range(0, len(lst), n): yield lst[i:i+n]`
for a positive step.  The value `m` is `n - 1`, so each slice takes `m + 1`
elements; phrasing the size this way makes the recursion well founded for
every `m`. -/
def chunksGo (m : Nat) : List α → List (List α)
  | [] => []
  | x :: xs => (x :: xs.take m) :: chunksGo m (xs.drop m)
  termination_by l => l.length
  decreasing_by
    simp only [List.length_drop, List.length_cons]
    omega

/-- `divide(lst, n)`, consumed through `list(...)` at every call site.  For
`n = 0` Python `range` raises `ValueError`; for `n < 0` the range
`range(0, len(lst), n)` is empty, so the generator yields nothing at all. -/
def divide (lst : List α) (n : Int) : Option (List (List α)) :=
  if n = 0 then none
  else if n < 0 then some []
  else some (chunksGo (n.toNat - 1) lst)

/-! ### Upload pipelines (`seller.upload_stocks`, lines 361-366) -/

/-- `seller.upload_stocks` with the network collaborators abstracted away:
the enumerated catalog is the `offer_ids` argument and the
`update_stocks` submissions do not affect the returned value.  Returns the
`(not_empty, stocks)` pair, where `not_empty` filters for a nonzero
`stock` field. -/
def upload_stocks (watch_remnants : List WatchRecord)
    (offer_ids : List String) : Option (List StockRecord × List StockRecord) :=
  (create_stocks watch_remnants offer_ids).map fun stocks =>
    (stocks.filter (fun stock => stock.stock != 0), stocks)

/-! ### Catalog enumerators (`seller.get_offer_ids` lines 70-82,
`market.get_offer_ids` lines 124-135)

The paginated endpoint is a pure function from the request cursor to the
returned page; the unbounded `while True:` loop is embedded with explicit
fuel, `none` meaning that the loop has not finished within `fuel`
iterations. -/

/-- One item of an Ozon product-list page. -/
structure SellerItem where
  offer_id : String
deriving Repr, DecidableEq

/-- One page returned by the Ozon `v2/product/list` endpoint, as consumed by
`seller.get_offer_ids`: the items, the reported catalog total, and the
continuation cursor. -/
structure SellerPage where
  items : List SellerItem
  total : Nat
  last_id : String
deriving Repr

/-- The `while True:` loop of `seller.get_offer_ids`: fetch a page, extend
the accumulator, and break when the reported `total` equals the length of
the accumulated list.  The cursor is only used to request the next page. -/
def sellerLoop (endpoint : String → SellerPage) :
    Nat → String → List SellerItem → Option (List SellerItem)
  | 0, _, _ => none
  | fuel + 1, last_id, product_list =>
    let p := endpoint last_id
    let product_list := product_list ++ p.items
    if p.total = product_list.length then some product_list
    else sellerLoop endpoint fuel p.last_id product_list

/-- `seller.get_offer_ids`: run the loop from the empty cursor and project
each accumulated item to its `offer_id`. -/
def seller_get_offer_ids (endpoint : String → SellerPage) (fuel : Nat) :
    Option (List String) :=
  (sellerLoop endpoint fuel "" []).map (List.map SellerItem.offer_id)

/-- One entry of a Yandex.Market `offer-mapping-entries` page. -/
structure MarketEntry where
  shopSku : String
deriving Repr, DecidableEq

/-- One page returned by the Yandex.Market catalog endpoint: the entries and
the continuation token, `none` modelling an absent `nextPageToken` (Python
`None`, falsy exactly like the empty string). -/
structure MarketPage where
  offerMappingEntries : List MarketEntry
  nextPageToken : Option String
deriving Repr

/-- The `while True:` loop of `market.get_offer_ids`: fetch a page, extend
the accumulator, and break when the returned token is falsy (`None` or the
empty string); otherwise continue from that token. -/
def marketLoop (endpoint : String → MarketPage) :
    Nat → String → List MarketEntry → Option (List MarketEntry)
  | 0, _, _ => none
  | fuel + 1, page, product_list =>
    let p := endpoint page
    let product_list := product_list ++ p.offerMappingEntries
    match p.nextPageToken with
    | none => some product_list
    | some t => if t = "" then some product_list
      else marketLoop endpoint fuel t product_list

/-- `market.get_offer_ids`: run the loop from the empty cursor and project
each accumulated entry to its `shopSku`. -/
def market_get_offer_ids (endpoint : String → MarketPage) (fuel : Nat) :
    Option (List String) :=
  (marketLoop endpoint fuel "" []).map (List.map MarketEntry.shopSku)

/-! ### Market-side reconciliation (`market.py` lines 138-255)

`market.create_stocks` and `market.create_prices` repeat the seller-side
logic verbatim except for the shape of the emitted records; the timestamp
taken once from the system clock is passed in as the `date` argument. -/

/-- The single element of the `items` list of a market stock record. -/
structure StockItem where
  count : Int
  type : String
  updatedAt : String
deriving Repr, DecidableEq

/-- One entry of the stock payload built by `market.create_stocks`. -/
structure MarketStockRecord where
  sku : String
  warehouseId : String
  items : List StockItem
deriving Repr, DecidableEq

/-- The first loop of `market.create_stocks` (lines 172-194): same working
set discipline as the seller variant, different record shape. -/
def marketStocksLoop (warehouse_id date : String) :
    List WatchRecord → List MarketStockRecord → List String →
    Option (List MarketStockRecord × List String)
  | [], stocks, offer_ids => some (stocks, offer_ids)
  | w :: ws, stocks, offer_ids =>
    if w.kod ∈ offer_ids then
      match normalizeQuantity w.kolichestvo with
      | none => none
      | some q =>
          marketStocksLoop warehouse_id date ws
            (stocks ++ [⟨w.kod, warehouse_id, [⟨q, "FIT", date⟩]⟩])
            (offer_ids.erase w.kod)
    else marketStocksLoop warehouse_id date ws stocks offer_ids

/-- `market.create_stocks` including the final state of the mutated
`offer_ids` list (lines 168-210). -/
def market_create_stocks_full (watch_remnants : List WatchRecord)
    (offer_ids : List String) (warehouse_id date : String) :
    Option (List MarketStockRecord × List String) :=
  match marketStocksLoop warehouse_id date watch_remnants [] offer_ids with
  | none => none
  | some (stocks, ids) =>
      some (stocks ++ ids.map (fun offer_id =>
        ⟨offer_id, warehouse_id, [⟨0, "FIT", date⟩]⟩), ids)

/-- The return value of `market.create_stocks`. -/
def market_create_stocks (watch_remnants : List WatchRecord)
    (offer_ids : List String) (warehouse_id date : String) :
    Option (List MarketStockRecord) :=
  (market_create_stocks_full watch_remnants offer_ids warehouse_id date).map
    Prod.fst

/-- The `price` object of a market price record. -/
structure MarketPriceValue where
  value : Int
  currencyId : String
deriving Repr, DecidableEq

/-- One entry of the price payload built by `market.create_prices`. -/
structure MarketPriceRecord where
  id : String
  price : MarketPriceValue
deriving Repr, DecidableEq

/-- `market.create_prices` (lines 239-255): like the seller variant but the
converted price is additionally passed through Python `int()`, which can
raise (modelled by `none`); `offer_ids` is only read. -/
def market_create_prices : List WatchRecord → List String →
    Option (List MarketPriceRecord)
  | [], _ => some []
  | w :: ws, offer_ids =>
    if w.kod ∈ offer_ids then
      match pyInt (price_conversion w.tsena) with
      | none => none
      | some v =>
          (market_create_prices ws offer_ids).map
            (fun prices => ⟨w.kod, ⟨v, "RUR"⟩⟩ :: prices)
    else market_create_prices ws offer_ids

/-- `market.upload_stocks` (lines 312-319) with the collaborators
abstracted: the enumerated catalog is the `offer_ids` argument.  The
`not_empty` filter reads `stock.get("items")[0].get("count")`; every record
built by `market_create_stocks` has exactly one item, and the default head
models the (unreachable) empty-items case. -/
def market_upload_stocks (watch_remnants : List WatchRecord)
    (offer_ids : List String) (warehouse_id date : String) :
    Option (List MarketStockRecord × List MarketStockRecord) :=
  (market_create_stocks watch_remnants offer_ids warehouse_id date).map
    fun stocks =>
      (stocks.filter (fun stock =>
        (stock.items.headD ⟨0, "", ""⟩).count != 0), stocks)

/-! ### Specification-side enumeration relations (for §4.1 of the spec)

Modelled from the spec: `spec.md` §4.1 describes the offer enumerator as
repeatedly calling the catalog endpoint, accumulating all returned
entries, and terminating exactly when the endpoint reports an empty or
absent continuation cursor.  `MarketEnumSpec` transcribes those words for
the market page shape; `SellerEnumSpec` states the analogous relation with
the stopping rule that `seller.get_offer_ids` actually uses (reported
total equals the number of accumulated entries). -/

/-- `true` exactly when a continuation token is absent or empty (Python
falsiness of `None` and `""`). -/
def tokenFalsy : Option String → Bool
  | none => true
  | some t => t = ""

/-- Enumeration relation written from the words of the spec: starting at
cursor `page` with entries `acc` already accumulated, the enumeration may
stop, yielding the accumulated entries, exactly when the page just fetched
reports an empty or absent cursor; otherwise it continues from the
reported cursor. -/
inductive MarketEnumSpec (endpoint : String → MarketPage) :
    String → List MarketEntry → List MarketEntry → Prop
  | stop (page : String) (acc : List MarketEntry)
      (h : tokenFalsy (endpoint page).nextPageToken = true) :
      MarketEnumSpec endpoint page acc
        (acc ++ (endpoint page).offerMappingEntries)
  | step (page : String) (acc out : List MarketEntry) (t : String)
      (h : (endpoint page).nextPageToken = some t) (ht : t ≠ "")
      (next : MarketEnumSpec endpoint t
        (acc ++ (endpoint page).offerMappingEntries) out) :
      MarketEnumSpec endpoint page acc out

/-- Enumeration relation for the seller loop: stopping is allowed exactly
when the page just fetched reports a `total` equal to the number of
entries accumulated so far (including that page), regardless of the
continuation cursor. -/
inductive SellerEnumSpec (endpoint : String → SellerPage) :
    String → List SellerItem → List SellerItem → Prop
  | stop (last : String) (acc : List SellerItem)
      (h : (endpoint last).total = (acc ++ (endpoint last).items).length) :
      SellerEnumSpec endpoint last acc (acc ++ (endpoint last).items)
  | step (last : String) (acc out : List SellerItem)
      (h : (endpoint last).total ≠ (acc ++ (endpoint last).items).length)
      (next : SellerEnumSpec endpoint (endpoint last).last_id
        (acc ++ (endpoint last).items) out) :
      SellerEnumSpec endpoint last acc out

/-- The endpoint witnessing that the seller enumerator's stopping rule is
not the cursor rule: the single page carries a non-empty continuation
cursor, yet its `total` matches the accumulated count at once. -/
def sellerEndpointCE : String → SellerPage :=
  fun _ => ⟨[⟨"x"⟩], 1, "NEXT"⟩

/-- The predicate used throughout the reconciliation statements: does any
record of the feed carry the offer code `c`?  (`any` with `==`, matching
the Python `in` membership test.) -/
def matchedBy (ws : List WatchRecord) (c : String) : Bool :=
  ws.any (fun w => w.kod == c)

/-- The record-shape translation between the two `create_stocks` variants:
a seller stock entry corresponds to a market entry with the same code and
count wrapped in a one-element `items` list. -/
def toMarketStock (warehouse_id date : String) (e : StockRecord) :
    MarketStockRecord :=
  ⟨e.offer_id, warehouse_id, [⟨e.stock, "FIT", date⟩]⟩

/-! ## Lemmas about the Python `int()` model -/

theorem ws_not_digit (c : Char) (h : c.isWhitespace = true) :
    c.isDigit = false := by
  simp only [Char.isWhitespace, Bool.or_eq_true, decide_eq_true_eq] at h
  rcases h with ((h | h) | h) | h <;> subst h <;> decide

theorem digit_ne_special (c : Char) (h : c.isDigit = true) :
    c ≠ '_' ∧ c ≠ '-' ∧ c ≠ '+' := by
  refine ⟨?_, ?_, ?_⟩ <;> rintro rfl <;> exact absurd h (by decide)

theorem dropWhile_ws_of_digits (cs : List Char)
    (h : ∀ c ∈ cs, c.isDigit = true) :
    cs.dropWhile Char.isWhitespace = cs := by
  cases cs with
  | nil => rfl
  | cons c rest =>
    rw [List.dropWhile_cons, if_neg]
    intro hws
    have hd := h c (by simp)
    rw [ws_not_digit c hws] at hd
    cases hd

theorem stripWs_of_digits (cs : List Char) (h : ∀ c ∈ cs, c.isDigit = true) :
    stripWs cs = cs := by
  unfold stripWs
  rw [dropWhile_ws_of_digits cs h, dropWhile_ws_of_digits, List.reverse_reverse]
  intro c hc
  exact h c (List.mem_reverse.mp hc)

theorem digitSeq_false_of_digits (cs : List Char)
    (h : ∀ c ∈ cs, c.isDigit = true) : digitSeq cs false = true := by
  induction cs with
  | nil => rfl
  | cons c rest ih =>
    have hd := h c (by simp)
    obtain ⟨hu, _, _⟩ := digit_ne_special c hd
    simp only [digitSeq, if_neg hu, hd, Bool.true_and]
    exact ih (fun d hm => h d (by simp [hm]))

theorem digitSeq_start_of_digits (c : Char) (rest : List Char)
    (h : ∀ d ∈ c :: rest, d.isDigit = true) :
    digitSeq (c :: rest) true = true := by
  have hd := h c (by simp)
  obtain ⟨hu, _, _⟩ := digit_ne_special c hd
  simp only [digitSeq, if_neg hu, hd, Bool.true_and]
  exact digitSeq_false_of_digits rest (fun d hm => h d (by simp [hm]))

theorem filter_ne_underscore_of_digits (cs : List Char)
    (h : ∀ c ∈ cs, c.isDigit = true) :
    cs.filter (fun d => d != '_') = cs := by
  refine List.filter_eq_self.mpr (fun c hc => ?_)
  exact bne_iff_ne.mpr (digit_ne_special c (h c hc)).1

/-- On a non-empty all-digit string, the `int()` model returns the numeric
value of the digits. -/
theorem pyInt_digits (cs : List Char) (hne : cs ≠ [])
    (h : ∀ c ∈ cs, c.isDigit = true) :
    pyInt ⟨cs⟩ = some ((digitsVal cs : Int)) := by
  unfold pyInt
  have hdata : (String.mk cs).data = cs := rfl
  rw [hdata, stripWs_of_digits cs h]
  cases cs with
  | nil => exact absurd rfl hne
  | cons c rest =>
    obtain ⟨_, h2, h3⟩ := digit_ne_special c (h c (by simp))
    simp only [pyIntSigned, if_neg h2, if_neg h3,
      if_pos (digitSeq_start_of_digits c rest h),
      filter_ne_underscore_of_digits _ h]

/-- Every character of `price_conversion`'s output is an ASCII digit. -/
theorem price_conversion_digits (s : String) :
    ∀ c ∈ (price_conversion s).data, c.isDigit = true := by
  intro c hc
  exact (List.mem_filter.mp hc).2

theorem string_eq_empty_iff (t : String) : t = "" ↔ t.data = [] := by
  constructor
  · intro h
    rw [h]
  · intro h
    cases t with
    | mk data =>
      simp only at h
      subst h
      rfl

/-- Closed form of `normalizePrice`: `none` exactly on an empty digit
string, otherwise the numeric value of the digits. -/
theorem normalizePrice_eq (s : String) :
    normalizePrice s =
      if (price_conversion s).data = [] then none
      else some ((digitsVal (price_conversion s).data : Int)) := by
  by_cases h : (price_conversion s).data = []
  · rw [if_pos h]
    unfold normalizePrice pyInt
    rw [h]
    rfl
  · rw [if_neg h]
    exact pyInt_digits (price_conversion s).data h (price_conversion_digits s)

/-! ## Claim C4 — quantity normalisation -/

/-- C4: the quantity normaliser inlined in `create_stocks` maps the literal
sentinel string consisting of a greater-than sign and `10` to `100`, the
literal string `1` to `0`, and any other value through plain Python
integer parsing, which fails (`none`) on non-numeric, non-sentinel text. -/
theorem c4_normalize_quantity :
    normalizeQuantity ">10" = some 100 ∧
    normalizeQuantity "1" = some 0 ∧
    normalizeQuantity "42" = some 42 ∧
    normalizeQuantity "abc" = none ∧
    ∀ s : String, s ≠ ">10" → s ≠ "1" → normalizeQuantity s = pyInt s := by
  refine ⟨rfl, rfl, rfl, rfl, fun s h1 h2 => ?_⟩
  simp only [normalizeQuantity, if_neg h1, if_neg h2]

/-- Witness for C4 at the concrete non-sentinel input `42`. -/
theorem c4_witness : normalizeQuantity "42" = pyInt "42" :=
  c4_normalize_quantity.2.2.2.2 "42" (by decide) (by decide)

/-! ## Claim C5 — price normalisation -/

/-- C5: `normalizePrice` keeps the part of the text before the first dot,
strips every non-digit character from it, and parses the remaining digits
as an integer; the documented examples evaluate as specified, and the
result is `none` (the `MalformedFeedRecord` failure of the market price
path) exactly when no digit remains after stripping. -/
theorem c5_normalize_price :
    normalizePrice "5'990.00 руб." = some 5990 ∧
    normalizePrice "199.99" = some 199 ∧
    (∀ s : String, (normalizePrice s = none ↔ price_conversion s = "")) ∧
    (∀ s : String, ∀ n : Int, normalizePrice s = some n →
      n = (digitsVal (price_conversion s).data : Int)) := by
  refine ⟨rfl, rfl, fun s => ?_, fun s n h => ?_⟩
  · rw [normalizePrice_eq, string_eq_empty_iff]
    by_cases h : (price_conversion s).data = [] <;> simp [h]
  · rw [normalizePrice_eq] at h
    by_cases hd : (price_conversion s).data = []
    · rw [if_pos hd] at h
      cases h
    · rw [if_neg hd] at h
      exact (Option.some_inj.mp h).symm

/-- Witness for C5 at a concrete malformed input (no digits before the
first dot). -/
theorem c5_witness :
    (normalizePrice "руб." = none ↔ price_conversion "руб." = "") ∧
    normalizePrice "руб." = none :=
  ⟨c5_normalize_price.2.2.1 "руб.", rfl⟩

/-! ## Lemmas about the batcher -/

theorem chunksGo_flatten (m : Nat) (l : List α) :
    (chunksGo m l).flatten = l := by
  induction l using chunksGo.induct m with
  | case1 => simp [chunksGo]
  | case2 x xs ih =>
    rw [chunksGo]
    simp only [List.flatten_cons]
    rw [ih]
    simp [List.take_append_drop]

theorem chunksGo_length_le (m : Nat) (l : List α) :
    ∀ c ∈ chunksGo m l, c.length ≤ m + 1 := by
  induction l using chunksGo.induct m with
  | case1 => simp [chunksGo]
  | case2 x xs ih =>
    rw [chunksGo]
    intro c hc
    rcases List.mem_cons.mp hc with hc | hc
    · subst hc
      simp only [List.length_cons, List.length_take]
      omega
    · exact ih c hc

theorem chunksGo_count (m : Nat) (l : List α) :
    (chunksGo m l).length = (l.length + m) / (m + 1) := by
  induction l using chunksGo.induct m with
  | case1 =>
    simp [chunksGo, Nat.div_eq_of_lt (by omega : m < m + 1)]
  | case2 x xs ih =>
    rw [chunksGo]
    simp only [List.length_cons, List.length_drop] at ih ⊢
    rcases le_or_lt m xs.length with hle | hlt
    · rw [ih, Nat.sub_add_cancel hle]
      have he : xs.length + 1 + m = xs.length + (m + 1) := by omega
      rw [he, Nat.add_div_right _ (by omega)]
    · have h0 : xs.length - m = 0 := by omega
      rw [ih, h0]
      have h1 : (0 + m) / (m + 1) = 0 := Nat.div_eq_of_lt (by omega)
      have h2 : (xs.length + 1 + m) / (m + 1) = 1 := by
        apply Nat.div_eq_of_lt_le <;> omega
      rw [h1, h2]

theorem chunksGo_full (m : Nat) (l : List α) :
    ∀ i c, i + 1 < (chunksGo m l).length → (chunksGo m l).get? i = some c →
      c.length = m + 1 := by
  induction l using chunksGo.induct m with
  | case1 =>
    intro i c h hc
    simp [chunksGo] at h
  | case2 x xs ih =>
    intro i c h hc
    rw [chunksGo] at h hc
    cases i with
    | zero =>
      simp only [List.length_cons] at h
      have hne : xs.drop m ≠ [] := by
        intro hnil
        rw [hnil] at h
        simp [chunksGo] at h
      have hlen : m < xs.length := by
        by_contra hge
        push_neg at hge
        exact hne (List.drop_eq_nil_of_le hge)
      simp only [List.get?_cons_zero, Option.some_inj] at hc
      subst hc
      simp only [List.length_cons, List.length_take]
      omega
    | succ i =>
      simp only [List.length_cons, Nat.succ_lt_succ_iff] at h
      simp only [List.get?_cons_succ] at hc
      exact ih i c h hc

/-! ## Claim C6 — chunking with a positive size -/

/-- C6: for every positive `n`, `divide` splits the list into consecutive
chunks whose concatenation reproduces the input, each chunk has at most
`n` elements, every chunk except possibly the last has exactly `n`, the
number of chunks is the ceiling of `length / n`, and an empty input gives
zero chunks. -/
theorem c6_divide_chunks {α : Type} (records : List α) (n : Int)
    (hn : 0 < n) :
    ∃ cs, divide records n = some cs ∧
      cs.flatten = records ∧
      (∀ c ∈ cs, c.length ≤ n.toNat) ∧
      (∀ i (h : i + 1 < cs.length),
        (cs.get ⟨i, Nat.lt_of_succ_lt h⟩).length = n.toNat) ∧
      cs.length = (records.length + n.toNat - 1) / n.toNat ∧
      (records = [] → cs = []) := by
  have hne : n ≠ 0 := by omega
  have hnlt : ¬n < 0 := by omega
  have hm : n.toNat = (n.toNat - 1) + 1 := by omega
  refine ⟨chunksGo (n.toNat - 1) records, ?_, chunksGo_flatten _ _, ?_, ?_,
    ?_, ?_⟩
  · simp [divide, hne, hnlt]
  · intro c hc
    have := chunksGo_length_le (n.toNat - 1) records c hc
    omega
  · intro i h
    have h2 := chunksGo_full (n.toNat - 1) records i
      ((chunksGo (n.toNat - 1) records).get ⟨i, Nat.lt_of_succ_lt h⟩) h
      (List.get?_eq_get (Nat.lt_of_succ_lt h))
    omega
  · rw [chunksGo_count]
    have e1 : records.length + (n.toNat - 1) = records.length + n.toNat - 1 :=
      by omega
    have e2 : n.toNat - 1 + 1 = n.toNat := by omega
    rw [e1, e2]
  · intro h
    rw [h]
    simp [chunksGo]

/-- Witness for C6 at the concrete input `[1, 2, 3, 4, 5]` with `n = 2`. -/
theorem c6_witness :
    ∃ cs, divide ([1, 2, 3, 4, 5] : List Nat) (2 : Int) = some cs ∧
      cs.flatten = [1, 2, 3, 4, 5] ∧
      (∀ c ∈ cs, c.length ≤ (2 : Int).toNat) ∧
      (∀ i (h : i + 1 < cs.length),
        (cs.get ⟨i, Nat.lt_of_succ_lt h⟩).length = (2 : Int).toNat) ∧
      cs.length =
        (([1, 2, 3, 4, 5] : List Nat).length + (2 : Int).toNat - 1) /
          (2 : Int).toNat ∧
      (([1, 2, 3, 4, 5] : List Nat) = [] → cs = []) :=
  c6_divide_chunks [1, 2, 3, 4, 5] 2 (by decide)

/-! ## Claim C9 — chunking with a non-positive size -/

/-- C9 (code bug): the docstring of `divide` promises `ValueError` for every
`n` less than or equal to zero, and the claim says the same, but only
`n = 0` raises (Python `range` rejects a zero step); for a negative `n`
the `range` is empty, so the generator silently yields zero chunks instead
of failing. -/
theorem c9_divide_nonpositive :
    divide ([1] : List Nat) (-1) = some [] ∧
    divide ([1] : List Nat) 0 = none :=
  ⟨rfl, rfl⟩

/-! ## Lemmas about the stock reconciliation loop -/

/-- Full characterisation of the first loop of `create_stocks` when it
succeeds and the working list is duplicate-free: the remaining working
list consists of the offer ids no feed record mentions (in catalog
order), and the new entries carry, one for each feed-matched offer id,
the normalised quantity of the first feed record with that code. -/
theorem stocksLoop_ok (F : List WatchRecord) :
    ∀ (acc : List StockRecord) (ids : List String), ids.Nodup →
    ∀ res rem, stocksLoop F acc ids = some (res, rem) →
    rem = ids.filter (fun c => !matchedBy F c) ∧
    ∃ mid, res = acc ++ mid ∧
      (mid.map StockRecord.offer_id).Perm
        (ids.filter (fun c => matchedBy F c)) ∧
      ∀ e ∈ mid, e.offer_id ∈ ids ∧
        ∃ w, F.find? (fun x => x.kod == e.offer_id) = some w ∧
          normalizeQuantity w.kolichestvo = some e.stock := by
  induction F with
  | nil =>
    intro acc ids hN res rem h
    simp only [stocksLoop, Option.some_inj, Prod.mk.injEq] at h
    obtain ⟨rfl, rfl⟩ := h
    refine ⟨by simp [matchedBy], [], by simp, by simp [matchedBy], by simp⟩
  | cons w ws ih =>
    intro acc ids hN res rem h
    simp only [stocksLoop] at h
    by_cases hmem : w.kod ∈ ids
    · rw [if_pos hmem] at h
      cases hq : normalizeQuantity w.kolichestvo with
      | none =>
        rw [hq] at h
        cases h
      | some q =>
        rw [hq] at h
        obtain ⟨hrem, mid', hres, hperm, hval⟩ :=
          ih (acc ++ [⟨w.kod, q⟩]) (ids.erase w.kod) (hN.erase _) res rem h
        have herase : ids.erase w.kod = ids.filter (fun x => x != w.kod) :=
          hN.erase_eq_filter w.kod
        constructor
        · rw [hrem, herase, List.filter_filter]
          refine List.filter_congr (fun c _ => ?_)
          by_cases hc : c = w.kod
          · subst hc
            simp [matchedBy, List.any_cons]
          · have h1 : (c != w.kod) = true :=
              bne_iff_ne.mpr hc
            have h2 : (w.kod == c) = false :=
              beq_eq_false_iff_ne.mpr (Ne.symm hc)
            simp [matchedBy, List.any_cons, h1, h2]
        · refine ⟨⟨w.kod, q⟩ :: mid', ?_, ?_, ?_⟩
          · rw [hres]
            simp
          · simp only [List.map_cons]
            have hpw : matchedBy (w :: ws) w.kod = true := by
              simp [matchedBy, List.any_cons]
            have hstep :
                (ids.erase w.kod).filter (fun c => matchedBy ws c) =
                (ids.erase w.kod).filter (fun c => matchedBy (w :: ws) c) := by
              refine List.filter_congr (fun c hc => ?_)
              have hne : c ≠ w.kod := (hN.mem_erase_iff.mp hc).1
              have h2 : (w.kod == c) = false :=
                beq_eq_false_iff_ne.mpr (Ne.symm hne)
              simp [matchedBy, List.any_cons, h2]
            have hchain :
                (w.kod :: (ids.erase w.kod)).filter
                  (fun c => matchedBy (w :: ws) c) =
                w.kod :: (ids.erase w.kod).filter
                  (fun c => matchedBy (w :: ws) c) :=
              List.filter_cons_of_pos hpw
            have hp2 :
                (ids.filter (fun c => matchedBy (w :: ws) c)).Perm
                  (w.kod :: (ids.erase w.kod).filter
                    (fun c => matchedBy (w :: ws) c)) := by
              have := (List.perm_cons_erase hmem).filter
                (fun c => matchedBy (w :: ws) c)
              rwa [hchain] at this
            have h2p : (List.map StockRecord.offer_id mid').Perm
                ((ids.erase w.kod).filter (fun c => matchedBy (w :: ws) c)) :=
              by rw [← hstep]; exact hperm
            exact (h2p.cons w.kod).trans hp2.symm
          · intro e he
            rcases List.mem_cons.mp he with he | he
            · subst he
              refine ⟨hmem, w, ?_, hq⟩
              exact List.find?_cons_of_pos _ (beq_iff_eq.mpr rfl)
            · obtain ⟨hmem', w', hfind, hnq⟩ := hval e he
              have hne : e.offer_id ≠ w.kod := (hN.mem_erase_iff.mp hmem').1
              refine ⟨List.mem_of_mem_erase hmem', w', ?_, hnq⟩
              rw [List.find?_cons_of_neg]
              · exact hfind
              · simp only [beq_iff_eq]
                exact Ne.symm hne
    · rw [if_neg hmem] at h
      obtain ⟨hrem, mid, hres, hperm, hval⟩ := ih acc ids hN res rem h
      have hagree : ∀ c ∈ ids, matchedBy ws c = matchedBy (w :: ws) c := by
        intro c hc
        have hne : c ≠ w.kod := fun hceq => hmem (hceq ▸ hc)
        have h2 : (w.kod == c) = false :=
          beq_eq_false_iff_ne.mpr (Ne.symm hne)
        simp [matchedBy, List.any_cons, h2]
      refine ⟨?_, mid, hres, ?_, ?_⟩
      · rw [hrem]
        exact List.filter_congr (fun c hc => by rw [hagree c hc])
      · refine hperm.trans ?_
        rw [List.filter_congr (fun c hc => (hagree c hc))]
      · intro e he
        obtain ⟨hmem', w', hfind, hnq⟩ := hval e he
        have hne : e.offer_id ≠ w.kod := fun hceq => hmem (hceq ▸ hmem')
        refine ⟨hmem', w', ?_, hnq⟩
        rw [List.find?_cons_of_neg]
        · exact hfind
        · simp only [beq_iff_eq]
          exact Ne.symm hne

/-! ## Claim C2 — stock reconciliation mutates the offer-id collection -/

/-- C2 (code bug): `create_stocks` removes every feed-matched code from the
`offer_ids` list it was handed, so in `seller.main` the subsequent
`create_prices` call sees the mutated list and emits nothing for the offer
`A` even though `A` occurs in both the feed and the catalog; on the
original list it would have emitted one record. -/
theorem c2_stocks_mutation_starves_prices :
    create_stocks_full [⟨"A", "5", "100.00"⟩] ["A"] =
      some ([⟨"A", 5⟩], []) ∧
    create_prices [⟨"A", "5", "100.00"⟩] [] = [] ∧
    create_prices [⟨"A", "5", "100.00"⟩] ["A"] =
      [⟨"UNKNOWN", "RUB", "A", "0", "100"⟩] :=
  ⟨rfl, rfl, rfl⟩

/-! ## The market stock path refines the seller stock path -/

theorem marketStocksLoop_eq (wid date : String) (F : List WatchRecord) :
    ∀ (acc : List StockRecord) (ids : List String),
      marketStocksLoop wid date F (acc.map (toMarketStock wid date)) ids =
        (stocksLoop F acc ids).map
          (fun p => (p.1.map (toMarketStock wid date), p.2)) := by
  induction F with
  | nil => intro acc ids; rfl
  | cons w ws ih =>
    intro acc ids
    simp only [stocksLoop, marketStocksLoop]
    by_cases hmem : w.kod ∈ ids
    · rw [if_pos hmem, if_pos hmem]
      cases hq : normalizeQuantity w.kolichestvo with
      | none => rfl
      | some q =>
        have hstep := ih (acc ++ [⟨w.kod, q⟩]) (ids.erase w.kod)
        rw [List.map_append] at hstep
        exact hstep
    · rw [if_neg hmem, if_neg hmem]
      exact ih acc ids

/-- `market.create_stocks` produces exactly the seller reconciliation with
each record translated to the market shape (and fails on the same
inputs). -/
theorem market_create_stocks_refines (F : List WatchRecord)
    (S : List String) (wid date : String) :
    market_create_stocks F S wid date =
      (create_stocks F S).map (List.map (toMarketStock wid date)) := by
  unfold market_create_stocks market_create_stocks_full
    create_stocks create_stocks_full
  have h := marketStocksLoop_eq wid date F [] S
  simp only [List.map_nil] at h
  rw [h]
  cases stocksLoop F [] S with
  | none => rfl
  | some p =>
    obtain ⟨res, rem⟩ := p
    simp [toMarketStock]

/-! ## Success shape of `create_stocks` -/

theorem create_stocks_ok (F : List WatchRecord) (S : List String)
    (out : List StockRecord) (h : create_stocks F S = some out) :
    ∃ res rem, stocksLoop F [] S = some (res, rem) ∧
      out = res ++ rem.map (fun offer_id => ⟨offer_id, 0⟩) := by
  unfold create_stocks create_stocks_full at h
  cases hsl : stocksLoop F [] S with
  | none => rw [hsl] at h; cases h
  | some p =>
    obtain ⟨res, rem⟩ := p
    rw [hsl] at h
    exact ⟨res, rem, rfl, (Option.some_inj.mp h).symm⟩

/-! ## Claim C1 — stock reconciliation completeness and correctness -/

/-- C1: for a duplicate-free catalog `S`, a successful `create_stocks`
returns exactly one stock record per offer id of `S` (no duplicates, none
omitted, nothing outside `S`); an offer also present in the feed gets the
normalised quantity of its first matching feed record, an offer absent
from the feed gets quantity `0`.  The market variant is the same
reconciliation with records translated to the market shape. -/
theorem c1_create_stocks_reconciliation (F : List WatchRecord)
    (S : List String) (hS : S.Nodup) (out : List StockRecord)
    (h : create_stocks F S = some out) :
    out.length = S.length ∧
    (out.map StockRecord.offer_id).Perm S ∧
    (out.map StockRecord.offer_id).Nodup ∧
    (∀ c ∈ S, ∀ w, F.find? (fun x => x.kod == c) = some w →
      ∃ e ∈ out, e.offer_id = c ∧
        normalizeQuantity w.kolichestvo = some e.stock) ∧
    (∀ c ∈ S, F.find? (fun x => x.kod == c) = none →
      (⟨c, 0⟩ : StockRecord) ∈ out) ∧
    (∀ e ∈ out, e.offer_id ∈ S) ∧
    (∀ wid date, market_create_stocks F S wid date =
      some (out.map (toMarketStock wid date))) := by
  obtain ⟨res, rem, hsl, rfl⟩ := create_stocks_ok F S out h
  obtain ⟨hrem, mid, hres, hperm, hval⟩ := stocksLoop_ok F [] S hS res rem hsl
  simp only [List.nil_append] at hres
  subst hres
  have hmap : (res ++ rem.map
      (fun offer_id => (⟨offer_id, 0⟩ : StockRecord))).map
      StockRecord.offer_id = res.map StockRecord.offer_id ++ rem := by
    simp only [List.map_append, List.map_map]
    have hcomp : (StockRecord.offer_id ∘
        fun offer_id => (⟨offer_id, 0⟩ : StockRecord)) = id := rfl
    rw [hcomp, List.map_id]
  have hpermS : ((res ++ rem.map
      (fun offer_id => (⟨offer_id, 0⟩ : StockRecord))).map
      StockRecord.offer_id).Perm S := by
    rw [hmap, hrem]
    exact ((hperm.append_right _).trans
      (List.filter_append_perm (fun c => matchedBy F c) S))
  refine ⟨?_, hpermS, (hpermS.nodup_iff).mpr hS, ?_, ?_, ?_, ?_⟩
  · have := hpermS.length_eq
    simpa using this
  · intro c hc w hw
    have hmatched : matchedBy F c = true :=
      List.any_eq_true.mpr ⟨w, List.mem_of_find?_eq_some hw,
        by simpa using List.find?_some hw⟩
    have hcf : c ∈ S.filter (fun c => matchedBy F c) :=
      List.mem_filter.mpr ⟨hc, hmatched⟩
    have hcm : c ∈ res.map StockRecord.offer_id := hperm.mem_iff.mpr hcf
    obtain ⟨e, he, heq⟩ := List.mem_map.mp hcm
    obtain ⟨-, w', hfind, hnq⟩ := hval e he
    rw [heq] at hfind
    rw [hw] at hfind
    obtain rfl := Option.some_inj.mp hfind
    exact ⟨e, List.mem_append_left _ he, heq, hnq⟩
  · intro c hc hw
    have hmatched : matchedBy F c = false := by
      refine List.any_eq_false.mpr (fun w hwF => ?_)
      exact List.find?_eq_none.mp hw w hwF
    have hcr : c ∈ rem := by
      rw [hrem]
      exact List.mem_filter.mpr ⟨hc, by rw [hmatched]; rfl⟩
    exact List.mem_append_right _ (List.mem_map.mpr ⟨c, hcr, rfl⟩)
  · intro e he
    have : e.offer_id ∈ (res ++ rem.map
        (fun offer_id => (⟨offer_id, 0⟩ : StockRecord))).map
        StockRecord.offer_id :=
      List.mem_map.mpr ⟨e, he, rfl⟩
    exact hpermS.mem_iff.mp this
  · intro wid date
    rw [market_create_stocks_refines, h]
    rfl

/-- Witness for C1 at the scenario of §8 of the spec: catalog `A, B, C`,
feed covering `A` (sentinel `>10`) and `B` (sentinel `1`). -/
theorem c1_witness :
    (([⟨"A", 100⟩, ⟨"B", 0⟩, ⟨"C", 0⟩] : List StockRecord).map
      StockRecord.offer_id).Perm ["A", "B", "C"] ∧
    ([⟨"A", 100⟩, ⟨"B", 0⟩, ⟨"C", 0⟩] : List StockRecord).length =
      (["A", "B", "C"] : List String).length := by
  have h := c1_create_stocks_reconciliation
    [⟨"A", ">10", "100.00"⟩, ⟨"B", "1", "50.00"⟩] ["A", "B", "C"]
    (by decide) [⟨"A", 100⟩, ⟨"B", 0⟩, ⟨"C", 0⟩] rfl
  exact ⟨h.2.1, h.1⟩

/-! ## Claim C8 — quantities in reconciled stocks -/

/-- Every quantity emitted by the first loop of `create_stocks` is either
inherited from the accumulator or the normalised quantity of some feed
record. -/
theorem stocksLoop_stock_source (F : List WatchRecord) :
    ∀ acc ids res rem, stocksLoop F acc ids = some (res, rem) →
    ∀ e ∈ res, e ∈ acc ∨
      ∃ w ∈ F, normalizeQuantity w.kolichestvo = some e.stock := by
  induction F with
  | nil =>
    intro acc ids res rem h e he
    simp only [stocksLoop, Option.some_inj, Prod.mk.injEq] at h
    obtain ⟨rfl, rfl⟩ := h
    exact Or.inl he
  | cons w ws ih =>
    intro acc ids res rem h e he
    simp only [stocksLoop] at h
    by_cases hmem : w.kod ∈ ids
    · rw [if_pos hmem] at h
      cases hq : normalizeQuantity w.kolichestvo with
      | none => rw [hq] at h; cases h
      | some q =>
        rw [hq] at h
        rcases ih (acc ++ [⟨w.kod, q⟩]) (ids.erase w.kod) res rem h e he with
          hacc | ⟨w2, hw2, hnq⟩
        · rcases List.mem_append.mp hacc with h1 | h1
          · exact Or.inl h1
          · simp only [List.mem_singleton] at h1
            subst h1
            exact Or.inr ⟨w, List.mem_cons_self w ws, hq⟩
        · exact Or.inr ⟨w2, List.mem_cons_of_mem w hw2, hnq⟩
    · rw [if_neg hmem] at h
      rcases ih acc ids res rem h e he with hacc | ⟨w2, hw2, hnq⟩
      · exact Or.inl hacc
      · exact Or.inr ⟨w2, List.mem_cons_of_mem w hw2, hnq⟩

/-- C8 (amended): every stock quantity produced by a successful
`create_stocks` run is non-negative, provided no feed quantity text parses
to a negative integer.  The sentinel branches contribute `100` and `0`,
catalog-only entries contribute `0`; the proviso is needed because a
negative numeral in the feed is passed through Python `int()` unchanged,
see the counterexample. -/
theorem c8_stocks_nonneg (F : List WatchRecord) (S : List String)
    (hq : ∀ w ∈ F, ∀ n : Int, pyInt w.kolichestvo = some n → 0 ≤ n)
    (out : List StockRecord) (h : create_stocks F S = some out) :
    ∀ e ∈ out, 0 ≤ e.stock := by
  obtain ⟨res, rem, hsl, rfl⟩ := create_stocks_ok F S out h
  intro e he
  rcases List.mem_append.mp he with he | he
  · rcases stocksLoop_stock_source F [] S res rem hsl e he with h0 | ⟨w, hw, hnq⟩
    · cases h0
    · unfold normalizeQuantity at hnq
      by_cases h1 : w.kolichestvo = ">10"
      · rw [if_pos h1] at hnq
        have h100 : (100 : Int) = e.stock := Option.some_inj.mp hnq
        omega
      · rw [if_neg h1] at hnq
        by_cases h2 : w.kolichestvo = "1"
        · rw [if_pos h2] at hnq
          have h0v : (0 : Int) = e.stock := Option.some_inj.mp hnq
          omega
        · rw [if_neg h2] at hnq
          exact hq w hw e.stock hnq
  · obtain ⟨c, hc, rfl⟩ := List.mem_map.mp he
    exact le_refl 0

/-- C8 counterexample: the feed quantity text `-5` is neither sentinel, so
it goes through `int()` and produces a negative stock entry, refuting the
unconditional non-negativity claim. -/
theorem c8_counterexample :
    create_stocks [⟨"A", "-5", "1"⟩] ["A"] = some [⟨"A", -5⟩] ∧
    ¬(0 ≤ ((⟨"A", -5⟩ : StockRecord)).stock) :=
  ⟨rfl, by decide⟩

/-- Witness for C8 at a concrete feed with a plain non-negative quantity. -/
theorem c8_witness : 0 ≤ ((⟨"A", 2⟩ : StockRecord)).stock :=
  c8_stocks_nonneg [⟨"A", "2", "1"⟩] ["A", "B"]
    (by
      intro w hw n hn
      simp only [List.mem_singleton] at hw
      subst hw
      have h3 : (2 : Int) = n :=
        Option.some_inj.mp ((rfl : pyInt "2" = some 2).symm.trans hn)
      omega)
    [⟨"A", 2⟩, ⟨"B", 0⟩] rfl ⟨"A", 2⟩ (List.mem_cons_self _ _)

/-! ## Claim C10 — upload split into nonzero and full lists -/

/-- The market `not_empty` filter, which reads the count of the first
`items` element, acts on records translated from the seller shape exactly
as the seller filter on nonzero `stock` (every translated record has a
one-element `items` list holding the stock count). -/
theorem filter_count_map (wid date : String) (l : List StockRecord) :
    (l.map (toMarketStock wid date)).filter
      (fun stock => (stock.items.headD ⟨0, "", ""⟩).count != 0) =
    (l.filter (fun e => e.stock != 0)).map (toMarketStock wid date) := by
  induction l with
  | nil => rfl
  | cons x xs ih =>
    simp only [List.map_cons, List.filter_cons]
    by_cases hx : x.stock = 0
    · have h1 : (((toMarketStock wid date x).items.headD
          ⟨0, "", ""⟩).count != 0) = false := by
        simp [toMarketStock, hx]
      have h2 : (x.stock != 0) = false := by simp [hx]
      rw [h1, h2, if_neg Bool.false_ne_true, if_neg Bool.false_ne_true]
      exact ih
    · have h1 : (((toMarketStock wid date x).items.headD
          ⟨0, "", ""⟩).count != 0) = true := by
        simp [toMarketStock, hx]
      have h2 : (x.stock != 0) = true := by simp [hx]
      rw [h1, h2, if_pos rfl, if_pos rfl, List.map_cons, ih]

/-- C10: on success, `upload_stocks` returns the full reconciled stock list
as its second component, and as its first component exactly those records
of that list whose quantity is nonzero, in the same relative order; the
market variant `market_upload_stocks` (filtering on the count of the
first `items` element) returns the same split translated to the market
record shape, and satisfies the same sublist and membership description. -/
theorem c10_upload_stocks_split (F : List WatchRecord) (S : List String)
    (not_empty stocks : List StockRecord)
    (h : upload_stocks F S = some (not_empty, stocks)) :
    create_stocks F S = some stocks ∧
    not_empty.Sublist stocks ∧
    (∀ e, e ∈ not_empty ↔ e ∈ stocks ∧ e.stock ≠ 0) ∧
    not_empty = stocks.filter (fun e => e.stock != 0) ∧
    (∀ wid date, market_upload_stocks F S wid date =
      some (not_empty.map (toMarketStock wid date),
        stocks.map (toMarketStock wid date))) ∧
    (∀ wid date mne mst,
      market_upload_stocks F S wid date = some (mne, mst) →
      market_create_stocks F S wid date = some mst ∧
      mne.Sublist mst ∧
      (∀ e, e ∈ mne ↔ e ∈ mst ∧
        (e.items.headD ⟨0, "", ""⟩).count ≠ 0) ∧
      mne = mst.filter
        (fun stock => (stock.items.headD ⟨0, "", ""⟩).count != 0)) := by
  unfold upload_stocks at h
  cases hcs : create_stocks F S with
  | none => rw [hcs] at h; cases h
  | some out =>
    rw [hcs] at h
    have h2 := Option.some_inj.mp h
    have h3 := congrArg Prod.fst h2
    have h4 := congrArg Prod.snd h2
    simp only at h3 h4
    subst h4
    subst h3
    refine ⟨rfl, List.filter_sublist _, fun e => ?_, rfl, ?_, ?_⟩
    · rw [List.mem_filter, bne_iff_ne]
    · intro wid date
      have hmu : market_upload_stocks F S wid date =
          some ((out.map (toMarketStock wid date)).filter
            (fun stock => (stock.items.headD ⟨0, "", ""⟩).count != 0),
            out.map (toMarketStock wid date)) := by
        unfold market_upload_stocks
        rw [market_create_stocks_refines, hcs]
        rfl
      rw [hmu, filter_count_map]
    · intro wid date mne mst hm
      unfold market_upload_stocks at hm
      cases hmcs : market_create_stocks F S wid date with
      | none => rw [hmcs] at hm; cases hm
      | some mout =>
        rw [hmcs] at hm
        have hm2 := Option.some_inj.mp hm
        have hm3 := congrArg Prod.fst hm2
        have hm4 := congrArg Prod.snd hm2
        simp only at hm3 hm4
        subst hm4
        subst hm3
        refine ⟨rfl, List.filter_sublist _, fun e => ?_, rfl⟩
        rw [List.mem_filter, bne_iff_ne]

/-- Witness for C10 at a concrete feed and catalog, exercising both the
seller and the market variant. -/
theorem c10_witness :
    create_stocks [⟨"A", "5", "1"⟩] ["A", "B"] =
      some [⟨"A", 5⟩, ⟨"B", 0⟩] ∧
    ([(⟨"A", 5⟩ : StockRecord)]).Sublist [⟨"A", 5⟩, ⟨"B", 0⟩] ∧
    [(⟨"A", 5⟩ : StockRecord)] =
      ([⟨"A", 5⟩, ⟨"B", 0⟩] : List StockRecord).filter
        (fun e => e.stock != 0) ∧
    market_upload_stocks [⟨"A", "5", "1"⟩] ["A", "B"] "W" "D" =
      some ([⟨"A", "W", [⟨5, "FIT", "D"⟩]⟩],
        [⟨"A", "W", [⟨5, "FIT", "D"⟩]⟩, ⟨"B", "W", [⟨0, "FIT", "D"⟩]⟩]) := by
  have h := c10_upload_stocks_split [⟨"A", "5", "1"⟩] ["A", "B"]
    [⟨"A", 5⟩] [⟨"A", 5⟩, ⟨"B", 0⟩] rfl
  exact ⟨h.1, h.2.1, h.2.2.2.1, h.2.2.2.2.1 "W" "D"⟩

/-! ## Claim C7 — every feed occurrence prices, only the first stocks -/

/-- The offer ids of the seller price payload are exactly the feed codes
(in feed order, with multiplicity) that belong to the catalog list. -/
theorem create_prices_map (F : List WatchRecord) (S : List String) :
    (create_prices F S).map PriceRecordOzon.offer_id =
      (F.map WatchRecord.kod).filter (fun c => decide (c ∈ S)) := by
  induction F with
  | nil => rfl
  | cons w ws ih =>
    simp only [create_prices, List.map_cons]
    by_cases hmem : w.kod ∈ S
    · rw [if_pos hmem, @List.filter_cons_of_pos String
        (fun c => decide (c ∈ S)) w.kod (ws.map WatchRecord.kod)
        (decide_eq_true hmem)]
      simp only [List.map_cons]
      rw [ih]
    · rw [if_neg hmem, @List.filter_cons_of_neg String
        (fun c => decide (c ∈ S)) w.kod (ws.map WatchRecord.kod)
        (by simpa using hmem)]
      exact ih

/-- The market price payload, when it parses successfully, carries the same
offer-id sequence. -/
theorem market_create_prices_map (F : List WatchRecord) (S : List String) :
    ∀ P, market_create_prices F S = some P →
      P.map MarketPriceRecord.id =
        (F.map WatchRecord.kod).filter (fun c => decide (c ∈ S)) := by
  induction F with
  | nil =>
    intro P h
    obtain rfl := Option.some_inj.mp h
    rfl
  | cons w ws ih =>
    intro P h
    simp only [market_create_prices] at h
    by_cases hmem : w.kod ∈ S
    · rw [if_pos hmem] at h
      cases hp : pyInt (price_conversion w.tsena) with
      | none => rw [hp] at h; cases h
      | some v =>
        rw [hp] at h
        cases hrec : market_create_prices ws S with
        | none => rw [hrec] at h; cases h
        | some Q =>
          rw [hrec] at h
          obtain rfl := Option.some_inj.mp h
          simp only [List.map_cons]
          rw [@List.filter_cons_of_pos String
            (fun c => decide (c ∈ S)) w.kod (ws.map WatchRecord.kod)
            (decide_eq_true hmem), ih Q hrec]
    · rw [if_neg hmem] at h
      simp only [List.map_cons]
      rw [@List.filter_cons_of_neg String
        (fun c => decide (c ∈ S)) w.kod (ws.map WatchRecord.kod)
        (by simpa using hmem)]
      exact ih P h

/-- The offer ids of a successful `create_stocks` output are a permutation
of a duplicate-free catalog. -/
theorem create_stocks_map_perm (F : List WatchRecord) (S : List String)
    (hS : S.Nodup) (out : List StockRecord)
    (h : create_stocks F S = some out) :
    (out.map StockRecord.offer_id).Perm S := by
  obtain ⟨res, rem, hsl, rfl⟩ := create_stocks_ok F S out h
  obtain ⟨hrem, mid, hres, hperm, hval⟩ := stocksLoop_ok F [] S hS res rem hsl
  simp only [List.nil_append] at hres
  subst hres
  have hmap : (res ++ rem.map
      (fun offer_id => (⟨offer_id, 0⟩ : StockRecord))).map
      StockRecord.offer_id = res.map StockRecord.offer_id ++ rem := by
    simp only [List.map_append, List.map_map]
    have hcomp : (StockRecord.offer_id ∘
        fun offer_id => (⟨offer_id, 0⟩ : StockRecord)) = id := rfl
    rw [hcomp, List.map_id]
  rw [hmap, hrem]
  exact ((hperm.append_right _).trans
    (List.filter_append_perm (fun c => matchedBy F c) S))

/-- C7: the price path (both variants) never emits an entry for a code
outside the catalog and emits one entry per feed occurrence of a catalog
code, in feed order with no deduplication; the stock path, by contrast,
emits each catalog code at most once and with the quantity of the first
matching feed record. -/
theorem c7_price_no_dedup_stock_first (F : List WatchRecord)
    (S : List String) :
    ((create_prices F S).map PriceRecordOzon.offer_id =
      (F.map WatchRecord.kod).filter (fun c => decide (c ∈ S))) ∧
    (∀ e ∈ create_prices F S, e.offer_id ∈ S) ∧
    (∀ P, market_create_prices F S = some P →
      P.map MarketPriceRecord.id =
        (F.map WatchRecord.kod).filter (fun c => decide (c ∈ S))) ∧
    (S.Nodup → ∀ out, create_stocks F S = some out →
      (out.map StockRecord.offer_id).Nodup ∧
      ∀ e ∈ out, ∀ w, F.find? (fun x => x.kod == e.offer_id) = some w →
        normalizeQuantity w.kolichestvo = some e.stock) := by
  refine ⟨create_prices_map F S, ?_, market_create_prices_map F S, ?_⟩
  · intro e he
    have h1 : e.offer_id ∈ (create_prices F S).map PriceRecordOzon.offer_id :=
      List.mem_map.mpr ⟨e, he, rfl⟩
    rw [create_prices_map] at h1
    exact of_decide_eq_true (List.mem_filter.mp h1).2
  · intro hS out h
    refine ⟨((create_stocks_map_perm F S hS out h).nodup_iff).mpr hS, ?_⟩
    obtain ⟨res, rem, hsl, rfl⟩ := create_stocks_ok F S out h
    obtain ⟨hrem, mid, hres, hperm, hval⟩ :=
      stocksLoop_ok F [] S hS res rem hsl
    simp only [List.nil_append] at hres
    subst hres
    intro e he w hw
    rcases List.mem_append.mp he with he | he
    · obtain ⟨-, w2, hfind, hnq⟩ := hval e he
      rw [hw] at hfind
      obtain rfl := Option.some_inj.mp hfind
      exact hnq
    · obtain ⟨c, hc, rfl⟩ := List.mem_map.mp he
      rw [hrem] at hc
      have hcm := (List.mem_filter.mp hc).2
      exfalso
      have hmt : matchedBy F c = true :=
        List.any_eq_true.mpr ⟨w, List.mem_of_find?_eq_some hw,
          by simpa using List.find?_some hw⟩
      rw [hmt] at hcm
      cases hcm

/-- Witness for C7 at a feed repeating the code `A` twice: two price
entries, one stock entry with the first quantity. -/
theorem c7_witness :
    ((create_prices [⟨"A", "5", "10"⟩, ⟨"A", "7", "20"⟩] ["A"]).map
      PriceRecordOzon.offer_id =
      (([⟨"A", "5", "10"⟩, ⟨"A", "7", "20"⟩] : List WatchRecord).map
        WatchRecord.kod).filter (fun c => decide (c ∈ ["A"]))) ∧
    ((([⟨"A", 5⟩] : List StockRecord).map StockRecord.offer_id).Nodup ∧
      ∀ e ∈ ([⟨"A", 5⟩] : List StockRecord), ∀ w,
        ([⟨"A", "5", "10"⟩, ⟨"A", "7", "20"⟩] : List WatchRecord).find?
          (fun x => x.kod == e.offer_id) = some w →
        normalizeQuantity w.kolichestvo = some e.stock) := by
  have h := c7_price_no_dedup_stock_first
    [⟨"A", "5", "10"⟩, ⟨"A", "7", "20"⟩] ["A"]
  exact ⟨h.1, h.2.2.2 (by decide) [⟨"A", 5⟩] rfl⟩

/-! ## Claim C3 — enumerator termination discipline -/

/-- Fuel-based market loop runs are sound for the spec relation: stopping
happens only at a falsy continuation token. -/
theorem marketLoop_sound (e : String → MarketPage) :
    ∀ fuel page acc out, marketLoop e fuel page acc = some out →
      MarketEnumSpec e page acc out := by
  intro fuel
  induction fuel with
  | zero => intro page acc out h; cases h
  | succ fuel ih =>
    intro page acc out h
    simp only [marketLoop] at h
    cases ht : (e page).nextPageToken with
    | none =>
      simp only [ht] at h
      obtain rfl := Option.some_inj.mp h
      exact MarketEnumSpec.stop page acc (by simp [tokenFalsy, ht])
    | some t =>
      simp only [ht] at h
      by_cases hte : t = ""
      · rw [if_pos hte] at h
        obtain rfl := Option.some_inj.mp h
        exact MarketEnumSpec.stop page acc (by simp [tokenFalsy, ht, hte])
      · rw [if_neg hte] at h
        exact MarketEnumSpec.step page acc out t ht hte
          (ih t (acc ++ (e page).offerMappingEntries) out h)

/-- Every spec-relation enumeration is reached by the market loop with
enough fuel. -/
theorem marketLoop_complete (e : String → MarketPage) :
    ∀ page acc out, MarketEnumSpec e page acc out →
      ∃ fuel, marketLoop e fuel page acc = some out := by
  intro page acc out h
  induction h with
  | stop page acc hstop =>
    refine ⟨1, ?_⟩
    simp only [marketLoop]
    cases ht : (e page).nextPageToken with
    | none => simp [ht]
    | some t =>
      have hte : t = "" := by
        simpa [tokenFalsy, ht] using hstop
      simp [ht, hte]
  | step page acc out t ht hte hnext ih =>
    obtain ⟨fuel, hf⟩ := ih
    refine ⟨fuel + 1, ?_⟩
    simp only [marketLoop, ht, if_neg hte]
    exact hf

/-- Fuel-based seller loop runs are sound for the seller spec relation:
stopping happens exactly when the reported total equals the accumulated
count. -/
theorem sellerLoop_sound (e : String → SellerPage) :
    ∀ fuel last acc out, sellerLoop e fuel last acc = some out →
      SellerEnumSpec e last acc out := by
  intro fuel
  induction fuel with
  | zero => intro last acc out h; cases h
  | succ fuel ih =>
    intro last acc out h
    simp only [sellerLoop] at h
    by_cases ht : (e last).total = (acc ++ (e last).items).length
    · rw [if_pos ht] at h
      obtain rfl := Option.some_inj.mp h
      exact SellerEnumSpec.stop last acc ht
    · rw [if_neg ht] at h
      exact SellerEnumSpec.step last acc out ht
        (ih (e last).last_id (acc ++ (e last).items) out h)

/-- Every seller spec-relation enumeration is reached by the seller loop
with enough fuel. -/
theorem sellerLoop_complete (e : String → SellerPage) :
    ∀ last acc out, SellerEnumSpec e last acc out →
      ∃ fuel, sellerLoop e fuel last acc = some out := by
  intro last acc out h
  induction h with
  | stop last acc hstop =>
    refine ⟨1, ?_⟩
    simp only [sellerLoop]
    rw [if_pos hstop]
  | step last acc out hne hnext ih =>
    obtain ⟨fuel, hf⟩ := ih
    refine ⟨fuel + 1, ?_⟩
    simp only [sellerLoop]
    rw [if_neg hne]
    exact hf

/-- C3 (amended): the market enumerator terminates exactly when the
endpoint reports an empty or absent continuation cursor, returning the
offer identifiers of all accumulated entries; the seller enumerator
instead terminates exactly when the reported catalog total equals the
number of accumulated entries, regardless of the cursor.  Each fuel-based
loop is equivalent to the corresponding inductive stopping discipline. -/
theorem c3_enumerator_termination (eS : String → SellerPage)
    (eM : String → MarketPage) :
    (∀ page acc out,
      (∃ fuel, marketLoop eM fuel page acc = some out) ↔
        MarketEnumSpec eM page acc out) ∧
    (∀ ids, (∃ fuel, market_get_offer_ids eM fuel = some ids) ↔
      ∃ entries, MarketEnumSpec eM "" [] entries ∧
        ids = entries.map MarketEntry.shopSku) ∧
    (∀ last acc out,
      (∃ fuel, sellerLoop eS fuel last acc = some out) ↔
        SellerEnumSpec eS last acc out) ∧
    (∀ ids, (∃ fuel, seller_get_offer_ids eS fuel = some ids) ↔
      ∃ items, SellerEnumSpec eS "" [] items ∧
        ids = items.map SellerItem.offer_id) := by
  refine ⟨?_, ?_, ?_, ?_⟩
  · intro page acc out
    constructor
    · rintro ⟨fuel, hf⟩
      exact marketLoop_sound eM fuel page acc out hf
    · intro hs
      exact marketLoop_complete eM page acc out hs
  · intro ids
    constructor
    · rintro ⟨fuel, hf⟩
      unfold market_get_offer_ids at hf
      obtain ⟨entries, he, hmap⟩ := Option.map_eq_some'.mp hf
      exact ⟨entries, marketLoop_sound eM fuel "" [] entries he, hmap.symm⟩
    · rintro ⟨entries, hspec, rfl⟩
      obtain ⟨fuel, hf⟩ := marketLoop_complete eM "" [] entries hspec
      refine ⟨fuel, ?_⟩
      unfold market_get_offer_ids
      rw [hf]
      rfl
  · intro last acc out
    constructor
    · rintro ⟨fuel, hf⟩
      exact sellerLoop_sound eS fuel last acc out hf
    · intro hs
      exact sellerLoop_complete eS last acc out hs
  · intro ids
    constructor
    · rintro ⟨fuel, hf⟩
      unfold seller_get_offer_ids at hf
      obtain ⟨items, he, hmap⟩ := Option.map_eq_some'.mp hf
      exact ⟨items, sellerLoop_sound eS fuel "" [] items he, hmap.symm⟩
    · rintro ⟨items, hspec, rfl⟩
      obtain ⟨fuel, hf⟩ := sellerLoop_complete eS "" [] items hspec
      refine ⟨fuel, ?_⟩
      unfold seller_get_offer_ids
      rw [hf]
      rfl

/-- C3 counterexample: the seller enumerator, run against an endpoint whose
single page reports the non-empty continuation cursor `NEXT` but a total
matching the accumulated count, terminates within one fuel unit, so the
seller variant does not terminate exactly when the cursor is empty or
absent, refuting the claim for `seller.get_offer_ids`. -/
theorem c3_counterexample :
    seller_get_offer_ids sellerEndpointCE 1 = some ["x"] ∧
    (sellerEndpointCE "").last_id = "NEXT" ∧
    ("NEXT" : String) ≠ "" :=
  ⟨rfl, rfl, by decide⟩

/-- Witness for C3: the amended equivalence applied to a one-page market
endpoint with an absent cursor. -/
theorem c3_witness :
    MarketEnumSpec (fun _ => ⟨[⟨"s"⟩], none⟩) "" [] [⟨"s"⟩] :=
  ((c3_enumerator_termination (fun _ => ⟨[], 0, ""⟩)
      (fun _ => ⟨[⟨"s"⟩], none⟩)).1 "" [] [⟨"s"⟩]).mp ⟨1, rfl⟩

end SellerApis
